import Mathlib

/-
Verification of the sequence-to-sequence decoding core
(`speechbrain/decoders/seq2seq.py`): the greedy searcher, the beam
searcher and the output filter.

Embedding conventions.

* Floating-point log-probabilities, scores, `length_penalty`,
  `eos_threshold` and the `minus_inf` sentinel are modelled as elements
  of an arbitrary linearly ordered commutative ring `K` with exact
  arithmetic (`ℚ` and `ℤ` are instances); the decoder only adds,
  multiplies and compares these quantities, so no division is needed.
* The IEEE value `-np.inf` used for the initial and masked sequence
  scores is modelled as `⊥` in `WithBot K`; `x + ⊥ = ⊥ + x = ⊥` matches
  float arithmetic on `-inf` for the additions the decoder performs.
  It is distinct from the finite sentinel `minus_inf` (default `-1e20`).
* Tensors are lists (rows of the `batch×beam` flattened dimension);
  out-of-range indexing uses `List.getD` with a junk default, which is
  never reached on the in-bounds accesses the code performs.
* The decode-length quantities `enc_states.shape[1] * min_decode_ratio`
  and `... * max_decode_ratio` are exact rationals.  Python's
  `range(max_decode_steps)` requires an integral value, and on integral
  values it equals `range(⌊T·ratio⌋)`; the loop is embedded with
  `natMulFloor` many iterations, and `natMulFloor`/`natLtMulRat` are
  proved below to compute `⌊T·r⌋` and the comparison `t < T·r` exactly.
* `torch.topk(..., sorted=True)` tie behaviour is pinned as in the
  spec: stable selection, lower flat index wins among equal scores
  (`pickFirstMax`/`topkIdx`).
-/

/-- Floor of `T * r` for a natural `T` and rational `r`, computed with
integer arithmetic only (kernel-reducible). -/
def natMulFloor (T : ℕ) (r : ℚ) : ℕ := ((T : ℤ) * r.num).toNat / r.den

/-- The Python comparison `t < T * r` (`t`, `T` integers, `r` an exact
rational), via cross-multiplication by the positive denominator. -/
def natLtMulRat (t T : ℕ) (r : ℚ) : Bool := (t : ℤ) * r.den < (T : ℤ) * r.num

/-- Faithfulness of `natLtMulRat`: it decides exactly the rational
comparison `t < T * r` performed by the source. -/
theorem natLtMulRat_iff (t T : ℕ) (r : ℚ) :
    natLtMulRat t T r = true ↔ (t : ℚ) < (T : ℚ) * r := by
  have hden : (0 : ℚ) < (r.den : ℚ) := by exact_mod_cast r.den_pos
  have key : (r : ℚ) * (r.den : ℚ) = (r.num : ℚ) := by
    nth_rewrite 1 [← Rat.num_div_den r]
    exact div_mul_cancel₀ _ hden.ne.symm
  have hnum : ((T : ℚ) * r) * (r.den : ℚ) = ((T : ℤ) * r.num : ℤ) := by
    rw [mul_assoc, key]
    push_cast
    ring
  constructor
  · intro h
    have h' : ((t : ℤ) * r.den : ℤ) < ((T : ℤ) * r.num : ℤ) := by
      simpa [natLtMulRat] using h
    have h'' : ((t : ℚ) * (r.den : ℚ)) < ((T : ℚ) * r) * (r.den : ℚ) := by
      rw [hnum]; exact_mod_cast h'
    exact lt_of_mul_lt_mul_right h'' hden.le
  · intro h
    have h'' : ((t : ℚ) * (r.den : ℚ)) < ((T : ℚ) * r) * (r.den : ℚ) :=
      mul_lt_mul_of_pos_right h hden
    rw [hnum] at h''
    have h' : ((t : ℤ) * r.den : ℤ) < ((T : ℤ) * r.num : ℤ) := by exact_mod_cast h''
    simpa [natLtMulRat] using h'

/-- Faithfulness of `natMulFloor`: for a nonnegative ratio it is the
floor of `T * r`. -/
theorem natMulFloor_eq_floor (T : ℕ) (r : ℚ) (hr : 0 ≤ r) :
    natMulFloor T r = ⌊(T : ℚ) * r⌋₊ := by
  have hq : 0 ≤ (T : ℚ) * r := mul_nonneg (by positivity) hr
  have hnumnn : 0 ≤ (T : ℤ) * r.num := by
    have : 0 ≤ r.num := Rat.num_nonneg.mpr hr
    positivity
  have hdpos : 0 < r.den := r.den_pos
  set a : ℕ := ((T : ℤ) * r.num).toNat with ha
  have haz : ((T : ℤ) * r.num) = (a : ℤ) := (Int.toNat_of_nonneg hnumnn).symm
  have hval : (T : ℚ) * r = (a : ℚ) / (r.den : ℚ) := by
    have hden : (0 : ℚ) < (r.den : ℚ) := by exact_mod_cast hdpos
    rw [eq_div_iff hden.ne.symm]
    have key : (r : ℚ) * (r.den : ℚ) = (r.num : ℚ) := by
      nth_rewrite 1 [← Rat.num_div_den r]
      exact div_mul_cancel₀ _ hden.ne.symm
    rw [mul_assoc, key]
    exact_mod_cast congrArg (fun z : ℤ => (z : ℚ)) haz
  symm
  rw [Nat.floor_eq_iff (by positivity)]
  constructor
  · rw [hval, le_div_iff₀ (by exact_mod_cast hdpos)]
    have := Nat.div_mul_le_self a r.den
    exact_mod_cast this
  · rw [hval, div_lt_iff₀ (by exact_mod_cast hdpos)]
    have h2 : a < (a / r.den + 1) * r.den := by
      rcases Nat.lt_or_ge a ((a / r.den + 1) * r.den) with h | h
      · exact h
      · exact absurd (Nat.le_div_iff_mul_le hdpos |>.mpr h) (by omega)
    have : (a : ℚ) < ((a / r.den + 1 : ℕ) : ℚ) * (r.den : ℚ) := by exact_mod_cast h2
    simpa [natMulFloor] using this

/- ------------------------------------------------------------------
SequenceFilter: `filter_seq2seq_output` (seq2seq.py lines 471-503).
------------------------------------------------------------------ -/

/-- Embedding of `filter_seq2seq_output` on a genuine Python list: the
first index holding `eos_id` is found with `next(i for i, v in
enumerate(string_pred) if v == eos_id)`, defaulting to `len` on
`StopIteration`, and the list is sliced strictly before it. -/
def filter_seq2seq_output {α : Type} [DecidableEq α] (string_pred : List α) (eos_id : α) :
    List α :=
  let eos_index :=
    match string_pred.findIdx? (fun v => decide (v = eos_id)) with
    | some i => i
    | none => string_pred.length
  string_pred.take eos_index

/-- A dynamically-typed Python argument: either an actual list or any
non-list value. -/
inductive PyInput (α : Type) where
  | list : List α → PyInput α
  | nonList : PyInput α
deriving DecidableEq

/-- The error taxonomy relevant to the filter: the `ValueError("The
input must be a list.")` raised by `filter_seq2seq_output`. -/
inductive DecodeError where
  | invalidInputKind
deriving DecidableEq

/-- Embedding of `filter_seq2seq_output` including its dynamic type
check: a non-list input raises (`Except.error`) immediately, a list
input is filtered. -/
def filterChecked {α : Type} [DecidableEq α] : PyInput α → α → Except DecodeError (List α)
  | PyInput.list l, eos_id => Except.ok (filter_seq2seq_output l eos_id)
  | PyInput.nonList, _ => Except.error DecodeError.invalidInputKind

/-- Helper: taking up to the first index where `p` holds is taking
while `p` fails. -/
theorem take_findIdx_eq_takeWhile {α : Type} (p : α → Bool) (l : List α) :
    l.take (l.findIdx p) = l.takeWhile (fun v => ! (p v)) := by
  induction l with
  | nil => rfl
  | cons x xs ih =>
    rw [List.findIdx_cons, List.takeWhile_cons]
    cases hpx : p x
    · simpa [hpx] using ih
    · simp [hpx]

/-- Helper: the filter is `takeWhile (· ≠ eos_id)`. -/
theorem filter_seq2seq_output_eq_takeWhile {α : Type} [DecidableEq α]
    (l : List α) (eos_id : α) :
    filter_seq2seq_output l eos_id = l.takeWhile (fun v => decide (v ≠ eos_id)) := by
  have hpred : (fun v : α => decide (v ≠ eos_id)) = (fun v => ! decide (v = eos_id)) := by
    funext v
    simp
  have hidx :
      (match l.findIdx? (fun v => decide (v = eos_id)) with
        | some i => i
        | none => l.length) = l.findIdx (fun v => decide (v = eos_id)) :=
    (List.findIdx_eq_findIdx? _ _).symm
  rw [filter_seq2seq_output, hidx, hpred]
  exact take_findIdx_eq_takeWhile _ l

/-- Tokens for the concrete scenario of the spec: the integers together
with a distinguished `eos` marker (the spec's `[1,2,3,4,"eos",5]`). -/
inductive Tok where
  | num : ℕ → Tok
  | eosTok : Tok
deriving DecidableEq

/-- Claim C8: for every list of tokens and every end-of-sequence
identifier, `filter_seq2seq_output` returns the prefix strictly before
the first occurrence of that identifier (`take` up to `indexOf`, the
index of the first occurrence), returns the whole list unchanged when
the identifier does not occur, and on the spec's concrete scenario
`[1,2,3,4,eos,5]` it yields `[1,2,3,4]`. -/
theorem filter_prefix_correct {α : Type} [DecidableEq α] (l : List α) (eos_id : α) :
    filter_seq2seq_output l eos_id = l.take (l.indexOf eos_id) ∧
    (eos_id ∉ l → filter_seq2seq_output l eos_id = l) ∧
    filter_seq2seq_output
        [Tok.num 1, Tok.num 2, Tok.num 3, Tok.num 4, Tok.eosTok, Tok.num 5] Tok.eosTok =
      [Tok.num 1, Tok.num 2, Tok.num 3, Tok.num 4] := by
  have hpq : (fun v : α => v == eos_id) = (fun v : α => decide (v = eos_id)) := rfl
  refine ⟨?_, ?_, by decide⟩
  · have hidx :
        (match l.findIdx? (fun v => decide (v = eos_id)) with
          | some i => i
          | none => l.length) = l.findIdx (fun v => decide (v = eos_id)) :=
      (List.findIdx_eq_findIdx? _ _).symm
    rw [filter_seq2seq_output, hidx, List.indexOf, hpq]
  · intro hmem
    have hall : ∀ v ∈ l, (fun v => decide (v ≠ eos_id)) v = true := by
      intro v hv
      simp only [decide_eq_true_eq]
      exact fun h => hmem (h ▸ hv)
    rw [filter_seq2seq_output_eq_takeWhile]
    exact List.takeWhile_eq_self_iff.mpr hall

/-- Witness for C8 at concrete inputs: filtering `[7]` (no eos) returns
it unchanged, and the `take`/`indexOf` form holds on `[1, eos, 5]`. -/
theorem filter_prefix_correct_witness :
    (Tok.eosTok ∉ [Tok.num 7] ∧
      filter_seq2seq_output [Tok.num 7] Tok.eosTok = [Tok.num 7]) ∧
    filter_seq2seq_output [Tok.num 1, Tok.eosTok, Tok.num 5] Tok.eosTok =
      ([Tok.num 1, Tok.eosTok, Tok.num 5].take
        ([Tok.num 1, Tok.eosTok, Tok.num 5].indexOf Tok.eosTok)) :=
  ⟨⟨by decide, (filter_prefix_correct [Tok.num 7] Tok.eosTok).2.1 (by decide)⟩,
    (filter_prefix_correct [Tok.num 1, Tok.eosTok, Tok.num 5] Tok.eosTok).1⟩

/-- Claim C9: the checked filter fails with `InvalidInputKind` if and
only if its input is not a list, and on every list input it returns the
filtered list with no error. -/
theorem filter_error_iff_nonlist {α : Type} [DecidableEq α] (inp : PyInput α) (eos_id : α) :
    ((filterChecked inp eos_id = Except.error DecodeError.invalidInputKind) ↔
      inp = PyInput.nonList) ∧
    (∀ l : List α,
      filterChecked (PyInput.list l) eos_id = Except.ok (filter_seq2seq_output l eos_id)) := by
  refine ⟨?_, fun l => rfl⟩
  cases inp with
  | list l => simp [filterChecked]
  | nonList => simp [filterChecked]

/-- Witness for C9: the non-list input raises `InvalidInputKind` and a
concrete list input does not. -/
theorem filter_error_iff_nonlist_witness :
    filterChecked (PyInput.nonList : PyInput Tok) Tok.eosTok =
      Except.error DecodeError.invalidInputKind :=
  ((filter_error_iff_nonlist (PyInput.nonList : PyInput Tok) Tok.eosTok).1).mpr rfl

/- ------------------------------------------------------------------
BeamSearcher (seq2seq.py lines 186-358).
------------------------------------------------------------------ -/

/-- A running sequence score: a float value that can also be `-np.inf`
(modelled as `⊥`). -/
abbrev Score (K : Type) := WithBot K

/-- One slot's log-probability row over the vocabulary. -/
abbrev Row (K : Type) := List K

/-- Configuration of `BeamSearcher.forward`: the constructor arguments
together with the encoder-derived step budget input (`T` is
`enc_states.shape[1]`) and the model collaborators: `step` is
`forward_step` restricted to the constant `enc_states`/`enc_lens`
arguments, `permute` is `permute_mem`, `resetMem` is `reset_mem`. -/
structure BeamCfg (K M : Type) where
  batchSize : ℕ
  T : ℕ
  bosIndex : ℕ
  eosIndex : ℕ
  minDecodeRatio : ℚ
  maxDecodeRatio : ℚ
  beamSize : ℕ
  lengthPenalty : K
  eosThreshold : K
  minusInf : K
  resetMem : M
  step : List ℕ → M → List (Row K) × M
  permute : M → List ℕ → M

/-- The loop budget `max_decode_steps`: the iteration count of
`range(enc_states.shape[1] * max_decode_ratio)`.  Python's `range`
requires the product to be integral, and on integral products the
count equals the floor `⌊T · max_decode_ratio⌋` stated by the spec. -/
def BeamCfg.maxDecodeSteps {K M : Type} (cfg : BeamCfg K M) : ℕ :=
  natMulFloor cfg.T cfg.maxDecodeRatio

/-- The test `t < min_decode_steps` of line 268, with
`min_decode_steps = enc_states.shape[1] * min_decode_ratio` an exact
rational. -/
def BeamCfg.belowMinSteps {K M : Type} (cfg : BeamCfg K M) (t : ℕ) : Bool :=
  natLtMulRat t cfg.T cfg.minDecodeRatio

/-- Lines 267-278 applied to one slot's row: first, below the minimum
number of steps the eos column is overwritten with `minus_inf`; then
`max_probs = torch.max(log_probs[:, : eos_index])`, the maximum over
the columns strictly before the eos index, is computed and the eos
column is kept only where it strictly exceeds
`eos_threshold * max_probs`, else set to `minus_inf`.  (For
`eos_index = 0` the slice is empty and torch raises; the `getD`
default is never reached for the in-range accesses the code makes.) -/
def gateRow {K M : Type} [LinearOrderedCommRing K] (cfg : BeamCfg K M) (t : ℕ)
    (row : Row K) : Row K :=
  let row1 := if cfg.belowMinSteps t then row.set cfg.eosIndex cfg.minusInf else row
  let maxProbs := ((row1.take cfg.eosIndex).max?).getD cfg.minusInf
  let eosProbs := row1.getD cfg.eosIndex cfg.minusInf
  row1.set cfg.eosIndex
    (if cfg.eosThreshold * maxProbs < eosProbs then eosProbs else cfg.minusInf)

/-- The state carried across iterations of the decoding loop of
`BeamSearcher.forward`; `t` is the loop counter. -/
structure BeamState (K M : Type) where
  inpTokens : List ℕ
  memory : M
  sequenceScores : List (Score K)
  hypsAndScores : List (List (List ℕ × Score K))
  alivedSeq : List (List ℕ)
  t : ℕ

/-- Lines 230-256: initial state.  `sequence_scores` is filled with
`-inf` and reset to `0` at each `beam_offset` position (the multiples
of `beam_size`); every slot starts from the `bos` token with an empty
history, and no hypothesis is retired. -/
def beamInit {K M : Type} [LinearOrderedCommRing K] (cfg : BeamCfg K M) : BeamState K M where
  inpTokens := List.replicate (cfg.batchSize * cfg.beamSize) cfg.bosIndex
  memory := cfg.resetMem
  sequenceScores :=
    (List.range (cfg.batchSize * cfg.beamSize)).map
      (fun i => if i % cfg.beamSize = 0 then ((0 : K) : Score K) else ⊥)
  hypsAndScores := List.replicate cfg.batchSize []
  alivedSeq := List.replicate (cfg.batchSize * cfg.beamSize) []
  t := 0

/-- First index of the maximum of `score` over a nonempty index list;
among equal scores the earliest index is kept (the pinned stable
`topk` tie-break: lower index wins). -/
def pickFirstMax {K : Type} [LinearOrderedCommRing K] (score : ℕ → Score K) :
    List ℕ → ℕ
  | [] => 0
  | i :: is => is.foldl (fun b j => if score b < score j then j else b) i

/-- Embedding of `torch.topk(k)` over the flat candidate scores: repeatedly select
the first maximal remaining index.  Returns the selected flat indices
in descending score order (ties: lower index first). -/
def topkIdx {K : Type} [LinearOrderedCommRing K] (score : ℕ → Score K) :
    List ℕ → ℕ → List ℕ
  | _, 0 => []
  | [], _ + 1 => []
  | i :: is, k + 1 =>
    let b := pickFirstMax score (i :: is)
    b :: topkIdx score ((i :: is).erase b) k

/-- The score of flat candidate `c` of example `i` (line 280-281):
the slot's running sequence score plus the gated log-probability of
the candidate's token; slot `c / vocab`, token `c % vocab`. -/
def candScore {K : Type} [LinearOrderedCommRing K] (beamSize : ℕ) (minusInf : K)
    (seqScores : List (Score K)) (gated : List (Row K)) (vocab i : ℕ) : ℕ → Score K :=
  fun c =>
    (seqScores.getD (i * beamSize + c / vocab) ⊥) +
      (((gated.getD (i * beamSize + c / vocab) []).getD (c % vocab) minusInf : K) : Score K)

/-- Lines 283-286: per example, the `beam_size` retained flat
candidates out of the `beam_size * vocab_size` continuations. -/
def beamSelect {K M : Type} [LinearOrderedCommRing K] (cfg : BeamCfg K M)
    (seqScores : List (Score K)) (gated : List (Row K)) (vocab i : ℕ) : List ℕ :=
  topkIdx (candScore cfg.beamSize cfg.minusInf seqScores gated vocab i)
    (List.range (cfg.beamSize * vocab)) cfg.beamSize

/-- The raw log-probabilities produced by `forward_step` on a state. -/
def stepLogProbs {K M : Type} (cfg : BeamCfg K M) (s : BeamState K M) : List (Row K) :=
  (cfg.step s.inpTokens s.memory).1

/-- The vocabulary width `vocab_size = log_probs.shape[-1]` (line 265). -/
def vocabOf {K M : Type} (cfg : BeamCfg K M) (s : BeamState K M) : ℕ :=
  ((stepLogProbs cfg s).headD []).length

/-- The masked/gated log-probabilities of one step (lines 267-278). -/
def stepGated {K M : Type} [LinearOrderedCommRing K] (cfg : BeamCfg K M)
    (s : BeamState K M) : List (Row K) :=
  (stepLogProbs cfg s).map (gateRow cfg s.t)

/-- The per-example top-k selections of one step. -/
def beamSelections {K M : Type} [LinearOrderedCommRing K] (cfg : BeamCfg K M)
    (s : BeamState K M) : List (List ℕ) :=
  (List.range cfg.batchSize).map
    (fun i => beamSelect cfg s.sequenceScores (stepGated cfg s) (vocabOf cfg s) i)

/-- Line 289-291: `inp_tokens = candidates % vocab_size`, flattened to
`batch_size * beam_size`. -/
def stepTokens {K M : Type} [LinearOrderedCommRing K] (cfg : BeamCfg K M)
    (s : BeamState K M) : List ℕ :=
  ((beamSelections cfg s).map (fun cs => cs.map (fun c => c % vocabOf cfg s))).flatten

/-- Lines 295-298: `predecessors = candidates // vocab_size +
beam_offset`, the flat slot index each retained candidate came from. -/
def stepPredecessors {K M : Type} [LinearOrderedCommRing K] (cfg : BeamCfg K M)
    (s : BeamState K M) : List ℕ :=
  ((List.range cfg.batchSize).map
      (fun i => ((beamSelections cfg s).getD i []).map
        (fun c => i * cfg.beamSize + c / vocabOf cfg s))).flatten

/-- Line 292: the retained candidates' scores become the new
`sequence_scores` (before eos masking). -/
def stepNewScores {K M : Type} [LinearOrderedCommRing K] (cfg : BeamCfg K M)
    (s : BeamState K M) : List (Score K) :=
  ((List.range cfg.batchSize).map
      (fun i => ((beamSelections cfg s).getD i []).map
        (candScore cfg.beamSize cfg.minusInf s.sequenceScores (stepGated cfg s)
          (vocabOf cfg s) i))).flatten

/-- Lines 303-310: gather the surviving histories by predecessor and
append each newly chosen token. -/
def stepAlived {K M : Type} [LinearOrderedCommRing K] (cfg : BeamCfg K M)
    (s : BeamState K M) : List (List ℕ) :=
  List.zipWith (fun p tok => (s.alivedSeq.getD p []) ++ [tok])
    (stepPredecessors cfg s) (stepTokens cfg s)

/-- Lines 315-326 for one flat index `idx`: if its chosen token is the
eos index, either silently skip (retired list already holds
`beam_size` entries) or append the pair
`(history, score + length_penalty * (t+1))` to the example's retired
list. -/
def retireOne {K M : Type} [LinearOrderedCommRing K] (cfg : BeamCfg K M) (t : ℕ)
    (tokens : List ℕ) (scores : List (Score K)) (alived : List (List ℕ)) (idx : ℕ)
    (hyps : List (List (List ℕ × Score K))) : List (List (List ℕ × Score K)) :=
  if tokens.getD idx (cfg.eosIndex + 1) = cfg.eosIndex then
    if (hyps.getD (idx / cfg.beamSize) []).length = cfg.beamSize then hyps
    else
      hyps.set (idx / cfg.beamSize) ((hyps.getD (idx / cfg.beamSize) []) ++
        [(alived.getD idx [],
          (scores.getD idx ⊥) + ((cfg.lengthPenalty * (((t + 1 : ℕ) : K))) : K))])
  else hyps

/-- The ascending iteration over `eos_indices` (line 316): process flat
indices `0, 1, …, n-1` in order. -/
def retireAll {K M : Type} [LinearOrderedCommRing K] (cfg : BeamCfg K M) (t : ℕ)
    (tokens : List ℕ) (scores : List (Score K)) (alived : List (List ℕ)) :
    ℕ → List (List (List ℕ × Score K)) → List (List (List ℕ × Score K))
  | 0, hyps => hyps
  | n + 1, hyps => retireOne cfg t tokens scores alived n
      (retireAll cfg t tokens scores alived n hyps)

/-- One iteration of the decoding loop (lines 261-329). -/
def beamStep {K M : Type} [LinearOrderedCommRing K] (cfg : BeamCfg K M)
    (s : BeamState K M) : BeamState K M :=
  let newTokens := stepTokens cfg s
  let newScores := stepNewScores cfg s
  let alived2 := stepAlived cfg s
  let hyps2 := retireAll cfg s.t newTokens newScores alived2 newTokens.length
    s.hypsAndScores
  let masked := List.zipWith
    (fun tok sc => if tok = cfg.eosIndex then (⊥ : Score K) else sc) newTokens newScores
  { inpTokens := newTokens
    memory := cfg.permute (cfg.step s.inpTokens s.memory).2 (stepPredecessors cfg s)
    sequenceScores := masked
    hypsAndScores := hyps2
    alivedSeq := alived2
    t := s.t + 1 }

/-- The state after `k` iterations of the loop. -/
def beamRunN {K M : Type} [LinearOrderedCommRing K] (cfg : BeamCfg K M) :
    ℕ → BeamState K M
  | 0 => beamInit cfg
  | k + 1 => beamStep cfg (beamRunN cfg k)

/-- The state when the loop exhausts its `max_decode_steps` budget. -/
def beamLoop {K M : Type} [LinearOrderedCommRing K] (cfg : BeamCfg K M) : BeamState K M :=
  beamRunN cfg cfg.maxDecodeSteps

/-- Lines 332-344 for one example `i`: if fewer than `beam_size`
hypotheses were retired, extend the retired list with the first
`beam_size - n_hyps` slots of the example (in slot order), each scored
`sequence_scores[slot] + length_penalty * max_decode_steps`. -/
def backfillOne {K M : Type} [LinearOrderedCommRing K] (cfg : BeamCfg K M)
    (s : BeamState K M) (i : ℕ) (hyps : List (List (List ℕ × Score K))) :
    List (List (List ℕ × Score K)) :=
  if (hyps.getD i []).length < cfg.beamSize then
    hyps.set i ((hyps.getD i []) ++
      (List.range (cfg.beamSize - (hyps.getD i []).length)).map (fun r =>
        (s.alivedSeq.getD (i * cfg.beamSize + r) [],
          (s.sequenceScores.getD (i * cfg.beamSize + r) ⊥) +
            ((cfg.lengthPenalty * ((cfg.maxDecodeSteps : K))) : K))))
  else hyps

/-- The loop over examples of lines 332-344. -/
def backfillAll {K M : Type} [LinearOrderedCommRing K] (cfg : BeamCfg K M)
    (s : BeamState K M) : ℕ → List (List (List ℕ × Score K)) → List (List (List ℕ × Score K))
  | 0, hyps => hyps
  | n + 1, hyps => backfillOne cfg s n (backfillAll cfg s n hyps)

/-- The retired lists after finalization backfill. -/
def beamFinalHyps {K M : Type} [LinearOrderedCommRing K] (cfg : BeamCfg K M)
    (s : BeamState K M) : List (List (List ℕ × Score K)) :=
  backfillAll cfg s cfg.batchSize s.hypsAndScores

/-- Python's `max(hyps_and_scores[i], key=lambda pair: pair[1])`
(lines 348-350): scan left to right, replacing the current best only
on a strictly larger score, so the first maximal pair wins.  (Python
raises on an empty list; the `([], ⊥)` default is never reached since
finalization leaves `beam_size ≥ 1` entries.) -/
def pickBest {K : Type} [LinearOrderedCommRing K] (l : List (List ℕ × Score K)) :
    List ℕ × Score K :=
  match l with
  | [] => ([], ⊥)
  | x :: xs => xs.foldl (fun b y => if b.2 < y.2 then y else b) x

/-- Lines 346-358: the per-example best hypotheses and scores, with the
predictions passed through `batch_filter_seq2seq_output`. -/
def beamOutputs {K M : Type} [LinearOrderedCommRing K] (cfg : BeamCfg K M) :
    List (List ℕ) × List (Score K) :=
  let s := beamLoop cfg
  let fh := beamFinalHyps cfg s
  let best := (List.range cfg.batchSize).map (fun i => pickBest (fh.getD i []))
  (best.map (fun p => filter_seq2seq_output p.1 cfg.eosIndex), best.map Prod.snd)

/- ------------------------------------------------------------------
GreedySearcher (seq2seq.py lines 109-141).
------------------------------------------------------------------ -/

/-- Configuration of `GreedySearcher.forward`: constructor arguments,
the encoder time dimension `T`, and the model collaborators. -/
structure GreedyCfg (K M : Type) where
  batchSize : ℕ
  T : ℕ
  bosIndex : ℕ
  eosIndex : ℕ
  minDecodeRatio : ℚ
  maxDecodeRatio : ℚ
  resetMem : M
  step : List ℕ → M → List (Row K) × M

/-- The greedy loop budget (line 125):
`range(enc_states.shape[1] * max_decode_ratio)`. -/
def GreedyCfg.maxDecodeSteps {K M : Type} (cfg : GreedyCfg K M) : ℕ :=
  natMulFloor cfg.T cfg.maxDecodeRatio

/-- Embedding of `log_probs.argmax(dim=-1)` on one row: the first index attaining
the maximum (ties: lowest index). -/
def argmaxRow {K : Type} [LinearOrderedCommRing K] (row : Row K) : ℕ :=
  (List.range row.length).foldl
    (fun b i => if row.getD b 0 < row.getD i 0 then i else b) 0

/-- Embedding of `log_probs.max(dim=-1)` values on one row. -/
def rowMax {K : Type} [LinearOrderedCommRing K] (row : Row K) : K :=
  (row.max?).getD 0

/-- The state of the greedy loop: memory, current input tokens and the
accumulated `log_probs_lst`. -/
structure GreedyState (K M : Type) where
  memory : M
  inpTokens : List ℕ
  logProbsLst : List (List (Row K))

/-- One iteration of the greedy loop (lines 127-132): call the step
function, append its log-probabilities to `log_probs_lst` and feed the
per-slot argmax tokens back as the next input. -/
def greedyStep {K M : Type} [LinearOrderedCommRing K] (cfg : GreedyCfg K M)
    (s : GreedyState K M) : GreedyState K M :=
  let fs := cfg.step s.inpTokens s.memory
  { memory := fs.2
    inpTokens := fs.1.map argmaxRow
    logProbsLst := s.logProbsLst ++ [fs.1] }

/-- The greedy state after `k` iterations, from the initial state of
lines 119-124 (fresh memory, all-`bos` inputs, empty list). -/
def greedyRunN {K M : Type} [LinearOrderedCommRing K] (cfg : GreedyCfg K M) :
    ℕ → GreedyState K M
  | 0 =>
    { memory := cfg.resetMem
      inpTokens := List.replicate cfg.batchSize cfg.bosIndex
      logProbsLst := [] }
  | k + 1 => greedyStep cfg (greedyRunN cfg k)

/-- The greedy state when the loop terminates. -/
def greedyLoop {K M : Type} [LinearOrderedCommRing K] (cfg : GreedyCfg K M) :
    GreedyState K M :=
  greedyRunN cfg cfg.maxDecodeSteps

/-- Lines 134-136: the returned score of batch row `b` is the sum over
all executed steps of that row's maximum log-probability. -/
def greedyScores {K M : Type} [LinearOrderedCommRing K] (cfg : GreedyCfg K M)
    (b : ℕ) : K :=
  ((greedyLoop cfg).logProbsLst.map (fun lps => rowMax (lps.getD b []))).sum

/-- Lines 135-139: the returned prediction of batch row `b` is the
per-step argmax trace truncated by `filter_seq2seq_output` at the
first eos. -/
def greedyPredictions {K M : Type} [LinearOrderedCommRing K] (cfg : GreedyCfg K M)
    (b : ℕ) : List ℕ :=
  filter_seq2seq_output
    ((greedyLoop cfg).logProbsLst.map (fun lps => argmaxRow (lps.getD b [])))
    cfg.eosIndex

/-- Mathematical recurrence for the greedy loop, used to express the
closed form of its outputs: `greedyIter cfg t` is the pair of input
tokens and memory entering step `t`. -/
def greedyIter {K M : Type} [LinearOrderedCommRing K] (cfg : GreedyCfg K M) :
    ℕ → List ℕ × M
  | 0 => (List.replicate cfg.batchSize cfg.bosIndex, cfg.resetMem)
  | t + 1 =>
    let p := greedyIter cfg t
    let fs := cfg.step p.1 p.2
    (fs.1.map argmaxRow, fs.2)

/-- The log-probabilities emitted by the step function at step `t` of
the greedy recurrence. -/
def greedyLp {K M : Type} [LinearOrderedCommRing K] (cfg : GreedyCfg K M) (t : ℕ) :
    List (Row K) :=
  (cfg.step (greedyIter cfg t).1 (greedyIter cfg t).2).1

/- ------------------------------------------------------------------
List helpers.
------------------------------------------------------------------ -/

/-- Reading back a just-written in-range position. -/
theorem getD_set_self {α : Type} (l : List α) (i : ℕ) (a d : α) (h : i < l.length) :
    (l.set i a).getD i d = a := by
  rw [List.getD_eq_getElem?_getD, List.getElem?_set_self (by simpa using h)]
  rfl

/-- Writing one position leaves every other position unchanged. -/
theorem getD_set_ne {α : Type} (l : List α) (i j : ℕ) (a d : α) (h : i ≠ j) :
    (l.set i a).getD j d = l.getD j d := by
  rw [List.getD_eq_getElem?_getD, List.getElem?_set_ne h, ← List.getD_eq_getElem?_getD]

/-- Writing at position `i` does not change the prefix of length `i`. -/
theorem take_set_eq {α : Type} : ∀ (l : List α) (i : ℕ) (a : α),
    (l.set i a).take i = l.take i
  | [], _, _ => rfl
  | _ :: _, 0, _ => rfl
  | x :: xs, i + 1, a => by
    simp only [List.set_cons_succ, List.take_succ_cons]
    rw [take_set_eq xs i a]

/-- Pointwise description of `zipWith` through `getD` (in range). -/
theorem zipWith_getD {α β γ : Type} (f : α → β → γ) :
    ∀ (l1 : List α) (l2 : List β) (i : ℕ) (d1 : α) (d2 : β) (d : γ),
      i < l1.length → i < l2.length →
      (List.zipWith f l1 l2).getD i d = f (l1.getD i d1) (l2.getD i d2)
  | [], _, _, _, _, _, h1, _ => by simp at h1
  | _ :: _, [], _, _, _, _, _, h2 => by simp at h2
  | x :: xs, y :: ys, 0, _, _, _, _, _ => rfl
  | x :: xs, y :: ys, i + 1, d1, d2, d, h1, h2 => by
    simpa using zipWith_getD f xs ys i d1 d2 d (by simpa using h1) (by simpa using h2)

/-- Reading an in-range position of a `map` over `range`. -/
theorem getD_map_range {α : Type} (f : ℕ → α) (n i : ℕ) (d : α) (h : i < n) :
    ((List.range n).map f).getD i d = f i := by
  rw [List.getD_eq_getElem?_getD, List.getElem?_map, List.getElem?_range h]
  rfl

/- ------------------------------------------------------------------
Top-k selection properties.
------------------------------------------------------------------ -/

/-- The element selected by `pickFirstMax` belongs to the scanned list. -/
theorem pickFirstMax_aux_mem {K : Type} [LinearOrderedCommRing K] (score : ℕ → Score K) :
    ∀ (is : List ℕ) (b : ℕ),
      is.foldl (fun b j => if score b < score j then j else b) b ∈ b :: is
  | [], b => by simp
  | j :: is, b => by
    have ih := pickFirstMax_aux_mem score is (if score b < score j then j else b)
    simp only [List.foldl_cons]
    rcases List.mem_cons.mp ih with h | h
    · rw [h]
      by_cases hbj : score b < score j <;> simp [hbj]
    · simp [h]

/-- The pick of `pickFirstMax` on a nonempty list is a member. -/
theorem pickFirstMax_mem {K : Type} [LinearOrderedCommRing K] (score : ℕ → Score K)
    (i : ℕ) (is : List ℕ) : pickFirstMax score (i :: is) ∈ i :: is :=
  pickFirstMax_aux_mem score is i

/-- The score of the accumulator never decreases along the scan, and
every scanned element is bounded by the final score. -/
theorem pickFirstMax_aux_le {K : Type} [LinearOrderedCommRing K] (score : ℕ → Score K) :
    ∀ (is : List ℕ) (b : ℕ),
      score b ≤ score (is.foldl (fun b j => if score b < score j then j else b) b) ∧
      ∀ x ∈ is, score x ≤ score (is.foldl (fun b j => if score b < score j then j else b) b)
  | [], b => by simp
  | j :: is, b => by
    simp only [List.foldl_cons]
    have ih := pickFirstMax_aux_le score is (if score b < score j then j else b)
    have hb : score b ≤ score (if score b < score j then j else b) := by
      by_cases hbj : score b < score j <;> simp [hbj]
      exact hbj.le
    have hj : score j ≤ score (if score b < score j then j else b) := by
      by_cases hbj : score b < score j <;> simp [hbj]
      exact le_of_not_lt hbj
    refine ⟨hb.trans ih.1, ?_⟩
    intro x hx
    rcases List.mem_cons.mp hx with h | h
    · exact h ▸ hj.trans ih.1
    · exact ih.2 x h

/-- Every member of the scanned list scores at most the pick. -/
theorem pickFirstMax_le {K : Type} [LinearOrderedCommRing K] (score : ℕ → Score K)
    (i : ℕ) (is : List ℕ) :
    ∀ x ∈ i :: is, score x ≤ score (pickFirstMax score (i :: is)) := by
  intro x hx
  have h := pickFirstMax_aux_le score is i
  rcases List.mem_cons.mp hx with hh | hh
  · exact hh ▸ h.1
  · exact h.2 x hh

/-- The selection `topkIdx` returns `min k length` indices. -/
theorem topkIdx_length {K : Type} [LinearOrderedCommRing K] (score : ℕ → Score K) :
    ∀ (k : ℕ) (l : List ℕ), (topkIdx score l k).length = min k l.length
  | 0, l => by simp [topkIdx]
  | k + 1, [] => by simp [topkIdx]
  | k + 1, i :: is => by
    have hmem := pickFirstMax_mem score i is
    have herase : ((i :: is).erase (pickFirstMax score (i :: is))).length = is.length :=
      by simpa using List.length_erase_of_mem hmem
    simp only [topkIdx, List.length_cons]
    rw [topkIdx_length score k ((i :: is).erase (pickFirstMax score (i :: is))), herase]
    omega

/-- Every selected index comes from the candidate list. -/
theorem topkIdx_mem {K : Type} [LinearOrderedCommRing K] (score : ℕ → Score K) :
    ∀ (k : ℕ) (l : List ℕ) (j : ℕ), j ∈ topkIdx score l k → j ∈ l
  | 0, l, j => by simp [topkIdx]
  | k + 1, [], j => by simp [topkIdx]
  | k + 1, i :: is, j => by
    intro hj
    simp only [topkIdx, List.mem_cons] at hj
    rcases hj with h | h
    · exact h ▸ pickFirstMax_mem score i is
    · exact List.mem_of_mem_erase (topkIdx_mem score k _ j h)

/-- If at least `k` candidates score strictly above `bound`, every one
of the `k` selected candidates scores strictly above `bound`. -/
theorem topkIdx_gt {K : Type} [LinearOrderedCommRing K] (score : ℕ → Score K)
    (bound : Score K) :
    ∀ (k : ℕ) (l : List ℕ),
      k ≤ (l.filter (fun c => decide (bound < score c))).length →
      ∀ j ∈ topkIdx score l k, bound < score j
  | 0, l, _, j => by simp [topkIdx]
  | k + 1, [], hk, j => by simp [topkIdx]
  | k + 1, i :: is, hk, j => by
    intro hj
    set b := pickFirstMax score (i :: is) with hbdef
    have hbmem : b ∈ i :: is := pickFirstMax_mem score i is
    have hfilter_ne : (List.filter (fun c => decide (bound < score c)) (i :: is)) ≠ [] := by
      intro hemp
      rw [hemp] at hk
      simp at hk
    obtain ⟨x, hxmem⟩ := List.exists_mem_of_ne_nil _ hfilter_ne
    have hxl : x ∈ i :: is := List.mem_of_mem_filter hxmem
    have hxgt : bound < score x := by
      have := List.of_mem_filter hxmem
      simpa using this
    have hbgt : bound < score b := lt_of_lt_of_le hxgt (pickFirstMax_le score i is x hxl)
    have hperm : (i :: is).Perm (b :: (i :: is).erase b) := List.perm_cons_erase hbmem
    have hfl : (List.filter (fun c => decide (bound < score c)) (i :: is)).length =
        (List.filter (fun c => decide (bound < score c)) (b :: (i :: is).erase b)).length :=
      (hperm.filter _).length_eq
    have hrec : k ≤ (List.filter (fun c => decide (bound < score c))
        ((i :: is).erase b)).length := by
      rw [hfl] at hk
      simp only [List.filter_cons, decide_eq_true_eq] at hk
      rw [if_pos hbgt] at hk
      simpa using hk
    simp only [topkIdx, ← hbdef, List.mem_cons] at hj
    rcases hj with h | h
    · exact h ▸ hbgt
    · exact topkIdx_gt score bound k _ hrec j h

/- ------------------------------------------------------------------
Retirement and backfill bookkeeping lemmas.
------------------------------------------------------------------ -/

/-- Retiring one index never changes the number of examples. -/
theorem retireOne_length {K M : Type} [LinearOrderedCommRing K] (cfg : BeamCfg K M)
    (t : ℕ) (tokens : List ℕ) (scores : List (Score K)) (alived : List (List ℕ))
    (idx : ℕ) (hyps : List (List (List ℕ × Score K))) :
    (retireOne cfg t tokens scores alived idx hyps).length = hyps.length := by
  unfold retireOne
  split
  · split
    · rfl
    · simp
  · rfl

/-- Retiring a batch of indices never changes the number of examples. -/
theorem retireAll_length {K M : Type} [LinearOrderedCommRing K] (cfg : BeamCfg K M)
    (t : ℕ) (tokens : List ℕ) (scores : List (Score K)) (alived : List (List ℕ)) :
    ∀ (n : ℕ) (hyps : List (List (List ℕ × Score K))),
      (retireAll cfg t tokens scores alived n hyps).length = hyps.length
  | 0, hyps => rfl
  | n + 1, hyps => by
    rw [retireAll, retireOne_length, retireAll_length cfg t tokens scores alived n hyps]

/-- Retiring one index keeps each example's retired count at most
`beam_size`. -/
theorem retireOne_le_single {K M : Type} [LinearOrderedCommRing K] (cfg : BeamCfg K M)
    (t : ℕ) (tokens : List ℕ) (scores : List (Score K)) (alived : List (List ℕ))
    (idx : ℕ) (hyps : List (List (List ℕ × Score K))) (b : ℕ)
    (hle : (hyps.getD b []).length ≤ cfg.beamSize) :
    ((retireOne cfg t tokens scores alived idx hyps).getD b []).length ≤ cfg.beamSize := by
  unfold retireOne
  split
  · split
    · exact hle
    · rename_i heos hfull
      by_cases hb : idx / cfg.beamSize = b
      · subst hb
        by_cases hlt : idx / cfg.beamSize < hyps.length
        · rw [getD_set_self _ _ _ _ hlt]
          simp only [List.length_append, List.length_cons, List.length_nil]
          omega
        · rw [List.set_eq_of_length_le (by omega)]
          exact hle
      · rw [getD_set_ne _ _ _ _ _ hb]
        exact hle
  · exact hle

/-- Retiring a batch of indices keeps each example's retired count at
most `beam_size`. -/
theorem retireAll_le_single {K M : Type} [LinearOrderedCommRing K] (cfg : BeamCfg K M)
    (t : ℕ) (tokens : List ℕ) (scores : List (Score K)) (alived : List (List ℕ)) :
    ∀ (n : ℕ) (hyps : List (List (List ℕ × Score K))) (b : ℕ),
      (hyps.getD b []).length ≤ cfg.beamSize →
      ((retireAll cfg t tokens scores alived n hyps).getD b []).length ≤ cfg.beamSize
  | 0, hyps, b, hle => hle
  | n + 1, hyps, b, hle =>
    retireOne_le_single cfg t tokens scores alived n _ b
      (retireAll_le_single cfg t tokens scores alived n hyps b hle)

/-- A full retired list (exactly `beam_size` entries) stays full and
unchanged in size: the arriving completion is silently discarded. -/
theorem retireOne_full {K M : Type} [LinearOrderedCommRing K] (cfg : BeamCfg K M)
    (t : ℕ) (tokens : List ℕ) (scores : List (Score K)) (alived : List (List ℕ))
    (idx : ℕ) (hyps : List (List (List ℕ × Score K))) (b : ℕ)
    (hfull : (hyps.getD b []).length = cfg.beamSize) :
    ((retireOne cfg t tokens scores alived idx hyps).getD b []).length = cfg.beamSize := by
  unfold retireOne
  split
  · split
    · exact hfull
    · rename_i heos hguard
      by_cases hb : idx / cfg.beamSize = b
      · subst hb
        exact absurd hfull hguard
      · rw [getD_set_ne _ _ _ _ _ hb]
        exact hfull
  · exact hfull

/-- A full retired list stays full across the whole retirement pass. -/
theorem retireAll_full {K M : Type} [LinearOrderedCommRing K] (cfg : BeamCfg K M)
    (t : ℕ) (tokens : List ℕ) (scores : List (Score K)) (alived : List (List ℕ)) :
    ∀ (n : ℕ) (hyps : List (List (List ℕ × Score K))) (b : ℕ),
      (hyps.getD b []).length = cfg.beamSize →
      ((retireAll cfg t tokens scores alived n hyps).getD b []).length = cfg.beamSize
  | 0, hyps, b, hfull => hfull
  | n + 1, hyps, b, hfull =>
    retireOne_full cfg t tokens scores alived n _ b
      (retireAll_full cfg t tokens scores alived n hyps b hfull)

/-- Retirement only appends: recorded pairs stay recorded. -/
theorem retireOne_mono {K M : Type} [LinearOrderedCommRing K] (cfg : BeamCfg K M)
    (t : ℕ) (tokens : List ℕ) (scores : List (Score K)) (alived : List (List ℕ))
    (idx : ℕ) (hyps : List (List (List ℕ × Score K))) (b : ℕ) (q : List ℕ × Score K)
    (hq : q ∈ hyps.getD b []) :
    q ∈ (retireOne cfg t tokens scores alived idx hyps).getD b [] := by
  unfold retireOne
  split
  · split
    · exact hq
    · by_cases hb : idx / cfg.beamSize = b
      · subst hb
        by_cases hlt : idx / cfg.beamSize < hyps.length
        · rw [getD_set_self _ _ _ _ hlt]
          exact List.mem_append_left _ hq
        · rw [List.set_eq_of_length_le (by omega)]
          exact hq
      · rw [getD_set_ne _ _ _ _ _ hb]
        exact hq
  · exact hq

/-- Recorded pairs stay recorded across the whole retirement pass. -/
theorem retireAll_mono {K M : Type} [LinearOrderedCommRing K] (cfg : BeamCfg K M)
    (t : ℕ) (tokens : List ℕ) (scores : List (Score K)) (alived : List (List ℕ)) :
    ∀ (n : ℕ) (hyps : List (List (List ℕ × Score K))) (b : ℕ) (q : List ℕ × Score K),
      q ∈ hyps.getD b [] →
      q ∈ (retireAll cfg t tokens scores alived n hyps).getD b []
  | 0, hyps, b, q, hq => hq
  | n + 1, hyps, b, q, hq =>
    retireOne_mono cfg t tokens scores alived n _ b q
      (retireAll_mono cfg t tokens scores alived n hyps b q hq)

/- ------------------------------------------------------------------
Run-level invariants.
------------------------------------------------------------------ -/

/-- Reading any position of a replicated list of empty lists gives the
empty list. -/
theorem getD_replicate_nil {α : Type} (n b : ℕ) :
    ((List.replicate n ([] : List α)).getD b []) = [] := by
  rw [List.getD_eq_getElem?_getD]
  cases h : (List.replicate n ([] : List α))[b]? with
  | none => rfl
  | some v =>
    have := List.mem_replicate.mp (List.getElem?_mem h)
    simp [this.2]

/-- Definitional projections of `beamStep`. -/
theorem beamStep_hypsAndScores {K M : Type} [LinearOrderedCommRing K]
    (cfg : BeamCfg K M) (s : BeamState K M) :
    (beamStep cfg s).hypsAndScores =
      retireAll cfg s.t (stepTokens cfg s) (stepNewScores cfg s) (stepAlived cfg s)
        (stepTokens cfg s).length s.hypsAndScores := rfl

/-- Definitional projection of `beamStep`: masked sequence scores. -/
theorem beamStep_sequenceScores {K M : Type} [LinearOrderedCommRing K]
    (cfg : BeamCfg K M) (s : BeamState K M) :
    (beamStep cfg s).sequenceScores =
      List.zipWith (fun tok sc => if tok = cfg.eosIndex then (⊥ : Score K) else sc)
        (stepTokens cfg s) (stepNewScores cfg s) := rfl

/-- Definitional projection of `beamStep`: the loop counter advances. -/
theorem beamStep_t {K M : Type} [LinearOrderedCommRing K]
    (cfg : BeamCfg K M) (s : BeamState K M) : (beamStep cfg s).t = s.t + 1 := rfl

/-- The loop counter after `k` iterations is `k`. -/
theorem beamRunN_t {K M : Type} [LinearOrderedCommRing K] (cfg : BeamCfg K M) :
    ∀ k : ℕ, (beamRunN cfg k).t = k
  | 0 => rfl
  | k + 1 => by rw [beamRunN, beamStep_t, beamRunN_t cfg k]

/-- The retired-hypothesis table always has `batch_size` rows. -/
theorem beamRunN_hyps_length {K M : Type} [LinearOrderedCommRing K] (cfg : BeamCfg K M) :
    ∀ k : ℕ, (beamRunN cfg k).hypsAndScores.length = cfg.batchSize
  | 0 => by simp [beamRunN, beamInit]
  | k + 1 => by
    rw [beamRunN, beamStep_hypsAndScores, retireAll_length,
      beamRunN_hyps_length cfg k]

/-- Beam width invariant, loop part: after any number of iterations
every example's retired list holds at most `beam_size` hypotheses. -/
theorem beamRunN_hyps_le {K M : Type} [LinearOrderedCommRing K] (cfg : BeamCfg K M) :
    ∀ (k b : ℕ),
      (((beamRunN cfg k).hypsAndScores.getD b []).length) ≤ cfg.beamSize
  | 0, b => by
    simp only [beamRunN, beamInit]
    rw [getD_replicate_nil]
    simp
  | k + 1, b => by
    rw [beamRunN, beamStep_hypsAndScores]
    exact retireAll_le_single cfg _ _ _ _ _ _ b (beamRunN_hyps_le cfg k b)

/- ------------------------------------------------------------------
Backfill characterization.
------------------------------------------------------------------ -/

/-- Backfilling one example never changes the number of examples. -/
theorem backfillOne_length {K M : Type} [LinearOrderedCommRing K] (cfg : BeamCfg K M)
    (s : BeamState K M) (i : ℕ) (hyps : List (List (List ℕ × Score K))) :
    (backfillOne cfg s i hyps).length = hyps.length := by
  unfold backfillOne
  split
  · simp
  · rfl

/-- Backfilling all examples never changes the number of examples. -/
theorem backfillAll_length {K M : Type} [LinearOrderedCommRing K] (cfg : BeamCfg K M)
    (s : BeamState K M) :
    ∀ (n : ℕ) (hyps : List (List (List ℕ × Score K))),
      (backfillAll cfg s n hyps).length = hyps.length
  | 0, _ => rfl
  | n + 1, hyps => by
    rw [backfillAll, backfillOne_length, backfillAll_length cfg s n hyps]

/-- Backfilling another example leaves a row unchanged. -/
theorem backfillOne_getD_ne {K M : Type} [LinearOrderedCommRing K] (cfg : BeamCfg K M)
    (s : BeamState K M) (j i : ℕ) (hyps : List (List (List ℕ × Score K))) (hne : j ≠ i) :
    (backfillOne cfg s j hyps).getD i [] = hyps.getD i [] := by
  unfold backfillOne
  split
  · exact getD_set_ne _ _ _ _ _ hne
  · rfl

/-- Each row of the finalization loop result is obtained by applying
the backfill of lines 332-344 to that row alone. -/
theorem backfillAll_getD {K M : Type} [LinearOrderedCommRing K] (cfg : BeamCfg K M)
    (s : BeamState K M) :
    ∀ (n : ℕ) (hyps : List (List (List ℕ × Score K))) (i : ℕ), i < hyps.length →
      (backfillAll cfg s n hyps).getD i [] =
        if i < n then (backfillOne cfg s i hyps).getD i [] else hyps.getD i []
  | 0, hyps, i, _ => by simp [backfillAll]
  | n + 1, hyps, i, hi => by
    rw [backfillAll]
    rcases Nat.lt_trichotomy i n with hlt | heq | hgt
    · rw [backfillOne_getD_ne cfg s n i _ (by omega),
        backfillAll_getD cfg s n hyps i hi, if_pos hlt, if_pos (by omega)]
    · subst heq
      have hXi : (backfillAll cfg s i hyps).getD i [] = hyps.getD i [] := by
        rw [backfillAll_getD cfg s i hyps i hi, if_neg (by omega)]
      have hXlen : (backfillAll cfg s i hyps).length = hyps.length :=
        backfillAll_length cfg s i hyps
      rw [if_pos (by omega)]
      unfold backfillOne
      rw [hXi]
      split
      · rw [getD_set_self _ _ _ _ (by omega), getD_set_self _ _ _ _ (by omega)]
      · exact hXi
    · rw [backfillOne_getD_ne cfg s n i _ (by omega),
        backfillAll_getD cfg s n hyps i hi, if_neg (by omega), if_neg (by omega)]

/-- After finalization every example's retired list holds exactly
`beam_size` hypotheses. -/
theorem final_hyps_len {K M : Type} [LinearOrderedCommRing K] (cfg : BeamCfg K M)
    (i : ℕ) (hi : i < cfg.batchSize) :
    ((beamFinalHyps cfg (beamLoop cfg)).getD i []).length = cfg.beamSize := by
  have hlen : i < (beamLoop cfg).hypsAndScores.length := by
    rw [beamLoop, beamRunN_hyps_length]
    exact hi
  have hle : (((beamLoop cfg).hypsAndScores.getD i []).length) ≤ cfg.beamSize :=
    beamRunN_hyps_le cfg _ i
  rw [beamFinalHyps, backfillAll_getD cfg _ cfg.batchSize _ i hlen, if_pos hi]
  unfold backfillOne
  split
  · rw [getD_set_self _ _ _ _ hlen]
    rename_i hlt
    simp only [List.length_append, List.length_map, List.length_range]
    omega
  · rename_i hge
    omega

/- ------------------------------------------------------------------
Greedy loop unfolding.
------------------------------------------------------------------ -/

/-- The greedy loop state after `n` iterations follows the
mathematical recurrence `greedyIter`, and its `log_probs_lst` is the
trace of the step function's outputs over steps `0, …, n-1`. -/
theorem greedyRunN_spec {K M : Type} [LinearOrderedCommRing K] (cfg : GreedyCfg K M) :
    ∀ n : ℕ,
      (greedyRunN cfg n).inpTokens = (greedyIter cfg n).1 ∧
      (greedyRunN cfg n).memory = (greedyIter cfg n).2 ∧
      (greedyRunN cfg n).logProbsLst = (List.range n).map (greedyLp cfg)
  | 0 => ⟨rfl, rfl, by simp [greedyRunN]⟩
  | n + 1 => by
    obtain ⟨h1, h2, h3⟩ := greedyRunN_spec cfg n
    refine ⟨?_, ?_, ?_⟩
    · show ((cfg.step (greedyRunN cfg n).inpTokens (greedyRunN cfg n).memory).1.map argmaxRow) =
        (greedyIter cfg (n + 1)).1
      rw [h1, h2]
      rfl
    · show (cfg.step (greedyRunN cfg n).inpTokens (greedyRunN cfg n).memory).2 =
        (greedyIter cfg (n + 1)).2
      rw [h1, h2]
      rfl
    · show (greedyRunN cfg n).logProbsLst ++
          [(cfg.step (greedyRunN cfg n).inpTokens (greedyRunN cfg n).memory).1] =
        (List.range (n + 1)).map (greedyLp cfg)
      rw [h1, h2, h3, List.range_succ, List.map_append]
      rfl

/- ------------------------------------------------------------------
pickBest and List.argmax.
------------------------------------------------------------------ -/

/-- The scan of `pickBest` coincides with the fold underlying
`List.argmax` once the accumulator is seeded. -/
theorem pickBest_foldl_argAux {K : Type} [LinearOrderedCommRing K] :
    ∀ (xs : List (List ℕ × Score K)) (b : List ℕ × Score K),
      xs.foldl (List.argAux fun p q => Prod.snd q < Prod.snd p) (some b) =
        some (xs.foldl (fun b y => if b.2 < y.2 then y else b) b)
  | [], b => rfl
  | y :: xs, b => by
    have hstep : (List.argAux (fun p q => Prod.snd q < Prod.snd p) (some b) y) =
        some (if b.2 < y.2 then y else b) := by
      by_cases h : b.2 < y.2 <;> simp [List.argAux, h]
    simp only [List.foldl_cons, hstep]
    exact pickBest_foldl_argAux xs (if b.2 < y.2 then y else b)

/-- The scan `pickBest` is exactly Python's first-maximal-score pick, i.e.
`List.argmax` on the score component. -/
theorem pickBest_eq_argmax {K : Type} [LinearOrderedCommRing K]
    (l : List (List ℕ × Score K)) (h : l ≠ []) :
    List.argmax Prod.snd l = some (pickBest l) := by
  cases l with
  | nil => exact absurd rfl h
  | cons x xs =>
    show List.foldl (List.argAux fun p q => Prod.snd q < Prod.snd p) none (x :: xs) = _
    simp only [List.foldl_cons]
    have hseed : (List.argAux (fun p q => Prod.snd q < Prod.snd p) none x) = some x := rfl
    rw [hseed, pickBest_foldl_argAux xs x]
    rfl

/- ------------------------------------------------------------------
Claim C3 and Claim C10.
------------------------------------------------------------------ -/

/-- Claim C3: for every encoder input, both decoders execute their
stepping loop for exactly `⌊T · max_decode_ratio⌋` iterations — the
beam loop counter ends at that value and the greedy `log_probs_lst`
records exactly one step-function call per iteration — and then
terminate; the loops have no early exit. -/
theorem decode_step_budget {K M K2 M2 : Type} [LinearOrderedCommRing K]
    [LinearOrderedCommRing K2] (bcfg : BeamCfg K M) (gcfg : GreedyCfg K2 M2)
    (hb : 0 ≤ bcfg.maxDecodeRatio) (hg : 0 ≤ gcfg.maxDecodeRatio) :
    (beamLoop bcfg).t = ⌊(bcfg.T : ℚ) * bcfg.maxDecodeRatio⌋₊ ∧
    (greedyLoop gcfg).logProbsLst.length = ⌊(gcfg.T : ℚ) * gcfg.maxDecodeRatio⌋₊ := by
  constructor
  · rw [beamLoop, beamRunN_t, BeamCfg.maxDecodeSteps, natMulFloor_eq_floor _ _ hb]
  · rw [greedyLoop, (greedyRunN_spec gcfg _).2.2, List.length_map, List.length_range,
      GreedyCfg.maxDecodeSteps, natMulFloor_eq_floor _ _ hg]

/-- A concrete beam configuration for the C3 witness. -/
def wBeamC3 : BeamCfg ℤ Unit where
  batchSize := 1
  T := 2
  bosIndex := 0
  eosIndex := 1
  minDecodeRatio := 0
  maxDecodeRatio := 1
  beamSize := 1
  lengthPenalty := 0
  eosThreshold := 1
  minusInf := -(10 ^ 20)
  resetMem := ()
  step := fun _ _ => ([[-2, -1]], ())
  permute := fun m _ => m

/-- A concrete greedy configuration for the C3 witness. -/
def wGreedyC3 : GreedyCfg ℤ Unit where
  batchSize := 1
  T := 3
  bosIndex := 0
  eosIndex := 1
  minDecodeRatio := 0
  maxDecodeRatio := 1
  resetMem := ()
  step := fun _ _ => ([[-2, -1]], ())

/-- Witness for C3: with `T = 2` (beam) and `T = 3` (greedy) and
ratio `1`, the loops run exactly 2 and 3 iterations. -/
theorem decode_step_budget_witness :
    ((0 : ℚ) ≤ wBeamC3.maxDecodeRatio ∧ (0 : ℚ) ≤ wGreedyC3.maxDecodeRatio) ∧
    (beamLoop wBeamC3).t = 2 ∧ (greedyLoop wGreedyC3).logProbsLst.length = 3 := by
  refine ⟨⟨by decide, by decide⟩, ?_, ?_⟩
  · have h := (decode_step_budget wBeamC3 wGreedyC3 (by decide) (by decide)).1
    simpa [wBeamC3] using h
  · have h := (decode_step_budget wBeamC3 wGreedyC3 (by decide) (by decide)).2
    simpa [wGreedyC3] using h

/-- Claim C10: the greedy score of batch row `b` is the sum of the
per-step maximum log-probabilities over all `max_decode_steps` executed
steps of the recurrence — the sum is not truncated at the first eos —
while the returned prediction is the per-step argmax trace cut strictly
before the first eos (`takeWhile (· ≠ eos)`). -/
theorem greedy_score_sum_all_steps {K M : Type} [LinearOrderedCommRing K]
    (cfg : GreedyCfg K M) (b : ℕ) :
    greedyScores cfg b =
      ((List.range cfg.maxDecodeSteps).map
        (fun t => rowMax ((greedyLp cfg t).getD b []))).sum ∧
    greedyPredictions cfg b =
      filter_seq2seq_output
        ((List.range cfg.maxDecodeSteps).map
          (fun t => argmaxRow ((greedyLp cfg t).getD b [])))
        cfg.eosIndex ∧
    greedyPredictions cfg b =
      ((List.range cfg.maxDecodeSteps).map
        (fun t => argmaxRow ((greedyLp cfg t).getD b []))).takeWhile
        (fun v => decide (v ≠ cfg.eosIndex)) := by
  have h3 := (greedyRunN_spec cfg cfg.maxDecodeSteps).2.2
  refine ⟨?_, ?_, ?_⟩
  · rw [greedyScores, greedyLoop, h3, List.map_map]
    rfl
  · rw [greedyPredictions, greedyLoop, h3, List.map_map]
    rfl
  · rw [greedyPredictions, greedyLoop, h3, List.map_map,
      filter_seq2seq_output_eq_takeWhile]
    rfl

/- ------------------------------------------------------------------
Claim C4.
------------------------------------------------------------------ -/

/-- Claim C4: (i) after any number of loop iterations every example's
retired list holds at most `beam_size` hypotheses; (ii) at every step
the per-example top-k selection retains exactly `beam_size` candidate
continuations (whenever the step function emits a nonempty vocabulary);
(iii) a completion arriving when the example's retired list already
holds `beam_size` entries is silently discarded — the list stays at
exactly `beam_size` entries and the (total) embedding raises no
error. -/
theorem beam_width_invariant {K M : Type} [LinearOrderedCommRing K] (cfg : BeamCfg K M) :
    (∀ k b : ℕ, ((beamRunN cfg k).hypsAndScores.getD b []).length ≤ cfg.beamSize) ∧
    (∀ s : BeamState K M, 1 ≤ vocabOf cfg s → ∀ i : ℕ, i < cfg.batchSize →
      ((beamSelections cfg s).getD i []).length = cfg.beamSize) ∧
    (∀ (s : BeamState K M) (b : ℕ),
      (s.hypsAndScores.getD b []).length = cfg.beamSize →
      ((beamStep cfg s).hypsAndScores.getD b []).length = cfg.beamSize) := by
  refine ⟨beamRunN_hyps_le cfg, ?_, ?_⟩
  · intro s hv i hi
    rw [beamSelections, getD_map_range _ _ _ _ hi, beamSelect, topkIdx_length,
      List.length_range]
    exact Nat.min_eq_left (Nat.le_mul_of_pos_right cfg.beamSize (by omega))
  · intro s b hfull
    rw [beamStep_hypsAndScores]
    exact retireAll_full cfg _ _ _ _ _ _ b hfull

/-- A concrete beam configuration for the C4 witness: one slot,
vocabulary `{0, eos}`, two decoding steps; the slot retires at step 0
and a second completion arriving at step 1 is silently discarded. -/
def wBeamC4 : BeamCfg ℤ Unit where
  batchSize := 1
  T := 2
  bosIndex := 0
  eosIndex := 1
  minDecodeRatio := 0
  maxDecodeRatio := 1
  beamSize := 1
  lengthPenalty := 0
  eosThreshold := 1
  minusInf := -(10 ^ 20)
  resetMem := ()
  step := fun _ _ => ([[-3, -1]], ())
  permute := fun m _ => m

/-- Witness for C4 on `wBeamC4`: the retired count is bounded after two
iterations, the selection keeps exactly `beam_size` candidates, and a
full retired list stays exactly full across a step. -/
theorem beam_width_invariant_witness :
    (((beamRunN wBeamC4 2).hypsAndScores.getD 0 []).length ≤ wBeamC4.beamSize) ∧
    (1 ≤ vocabOf wBeamC4 (beamRunN wBeamC4 0) ∧ 0 < wBeamC4.batchSize ∧
      ((beamSelections wBeamC4 (beamRunN wBeamC4 0)).getD 0 []).length = wBeamC4.beamSize) ∧
    (((beamRunN wBeamC4 1).hypsAndScores.getD 0 []).length = wBeamC4.beamSize ∧
      ((beamStep wBeamC4 (beamRunN wBeamC4 1)).hypsAndScores.getD 0 []).length =
        wBeamC4.beamSize) :=
  ⟨(beam_width_invariant wBeamC4).1 2 0,
    ⟨by decide, by decide,
      (beam_width_invariant wBeamC4).2.1 (beamRunN wBeamC4 0) (by decide) 0 (by decide)⟩,
    ⟨by decide,
      (beam_width_invariant wBeamC4).2.2 (beamRunN wBeamC4 1) 0 (by decide)⟩⟩

/- ------------------------------------------------------------------
Claim C2: counterexample and amended theorem.
------------------------------------------------------------------ -/

/-- Concrete beam run refuting C2 as stated: one example, two beams,
vocabulary `{0, 1, eos=2}`, one decoding step, constant
log-probabilities `[-5, -3, -1]`, `eos_threshold = 1`,
`length_penalty = 0`. -/
def cexC2 : BeamCfg ℤ Unit where
  batchSize := 1
  T := 1
  bosIndex := 0
  eosIndex := 2
  minDecodeRatio := 0
  maxDecodeRatio := 1
  beamSize := 2
  lengthPenalty := 0
  eosThreshold := 1
  minusInf := -(10 ^ 20)
  resetMem := ()
  step := fun _ _ => ([[-5, -3, -1], [-5, -3, -1]], ())
  permute := fun m _ => m

/-- Counterexample to C2 as stated.  At the single step the top slot
(slot 0) chooses eos (token 2), is retired with score `-1` and its
running score is masked to `-inf`; slot 1 is the only still-active
(non-retired) slot, with history `[1]` and running score `-3`.  The
claim demands backfilling from the highest-scoring non-retired slot,
i.e. the pair `([1], -3 + 0·1)`; the code instead backfills slot 0's
already-retired eos hypothesis `[2]` with sentinel score `⊥`. -/
theorem backfill_cex :
    (beamFinalHyps cexC2 (beamLoop cexC2)).getD 0 [] =
      [([2], ((-1 : ℤ) : Score ℤ)), ([2], (⊥ : Score ℤ))] ∧
    (beamLoop cexC2).inpTokens = [2, 1] ∧
    (beamLoop cexC2).sequenceScores = [⊥, ((-3 : ℤ) : Score ℤ)] ∧
    (beamLoop cexC2).alivedSeq = [[2], [1]] ∧
    ([([2], ((-1 : ℤ) : Score ℤ)), ([2], (⊥ : Score ℤ))] : List (List ℕ × Score ℤ)).getD 1
        ([], ⊥) ≠
      ([1], ((-3 : ℤ) : Score ℤ)) := by
  decide

/-- Claim C2 (amended): at finalization, for every example whose
retired list holds fewer than `beam_size` hypotheses, the list is
backfilled with the example's first `beam_size - n_hyps` slots in slot
order (the slots ranked highest by the final top-k, which may include
slots that just retired and whose running score was masked to `-inf`),
each receiving final score
`sequence_score + length_penalty * max_decode_steps`; afterwards the
list holds exactly `beam_size` hypotheses. -/
theorem backfill_amended {K M : Type} [LinearOrderedCommRing K] (cfg : BeamCfg K M)
    (i : ℕ) (hi : i < cfg.batchSize)
    (hn : (((beamLoop cfg).hypsAndScores.getD i []).length) < cfg.beamSize) :
    (beamFinalHyps cfg (beamLoop cfg)).getD i [] =
      (beamLoop cfg).hypsAndScores.getD i [] ++
        (List.range (cfg.beamSize - ((beamLoop cfg).hypsAndScores.getD i []).length)).map
          (fun r =>
            ((beamLoop cfg).alivedSeq.getD (i * cfg.beamSize + r) [],
              ((beamLoop cfg).sequenceScores.getD (i * cfg.beamSize + r) ⊥) +
                ((cfg.lengthPenalty * ((cfg.maxDecodeSteps : K))) : K))) ∧
    ((beamFinalHyps cfg (beamLoop cfg)).getD i []).length = cfg.beamSize := by
  have hlen : i < (beamLoop cfg).hypsAndScores.length := by
    rw [beamLoop, beamRunN_hyps_length]
    exact hi
  constructor
  · rw [beamFinalHyps, backfillAll_getD cfg _ cfg.batchSize _ i hlen, if_pos hi]
    unfold backfillOne
    rw [if_pos hn, getD_set_self _ _ _ _ hlen]
  · exact final_hyps_len cfg i hi

/-- A degenerate beam configuration (zero decode steps) for the C2
witness: nothing retires, so finalization backfills the whole beam. -/
def wBeamC2 : BeamCfg ℤ Unit where
  batchSize := 1
  T := 0
  bosIndex := 0
  eosIndex := 1
  minDecodeRatio := 0
  maxDecodeRatio := 1
  beamSize := 2
  lengthPenalty := 0
  eosThreshold := 1
  minusInf := -(10 ^ 20)
  resetMem := ()
  step := fun _ _ => ([[-2, -1], [-2, -1]], ())
  permute := fun m _ => m

/-- Witness for C2 (amended) on `wBeamC2`: the hypotheses hold and the
finalized list reaches exactly `beam_size` entries. -/
theorem backfill_amended_witness :
    (0 < wBeamC2.batchSize ∧
      ((beamLoop wBeamC2).hypsAndScores.getD 0 []).length < wBeamC2.beamSize) ∧
    ((beamFinalHyps wBeamC2 (beamLoop wBeamC2)).getD 0 []).length = wBeamC2.beamSize :=
  ⟨⟨by decide, by decide⟩, (backfill_amended wBeamC2 0 (by decide) (by decide)).2⟩

/- ------------------------------------------------------------------
Claim C1: counterexample and amended theorem.
------------------------------------------------------------------ -/

/-- Reading an in-range position of a mapped list. -/
theorem getD_map_inbounds {α β : Type} (f : α → β) (l : List α) (j : ℕ) (d : β) (d' : α)
    (h : j < l.length) : (l.map f).getD j d = f (l.getD j d') := by
  rw [List.getD_eq_getElem?_getD, List.getElem?_map,
    List.getElem?_eq_getElem h, List.getD_eq_getElem?_getD, List.getElem?_eq_getElem h]
  rfl

/-- Below the minimum step count the gated eos column is the sentinel,
whatever the step function emitted. -/
theorem gateRow_belowMin {K M : Type} [LinearOrderedCommRing K] (cfg : BeamCfg K M)
    (t : ℕ) (row : Row K) (hbm : cfg.belowMinSteps t = true)
    (he : cfg.eosIndex < row.length) :
    (gateRow cfg t row).getD cfg.eosIndex cfg.minusInf = cfg.minusInf := by
  simp only [gateRow, hbm, if_true]
  rw [getD_set_self _ _ _ _ (by simpa using he)]
  rw [getD_set_self _ _ _ _ he]
  exact ite_self _

/-- Claim C1 (amended): at every step and for every slot, the gated eos
column equals the sentinel below the minimum step count, and otherwise
it keeps the eos log-probability exactly when that value strictly
exceeds `eos_threshold * m` where `m` is the maximum log-probability
over the vocabulary columns with index strictly below the eos index
(`log_probs[:, :eos_index]`), being masked to the finite sentinel
`minus_inf` otherwise; all other columns are unchanged.  (Because the
sentinel is finite, a masked eos can still be chosen when fewer than
`beam_size` candidates of its example outscore it — see the
counterexample to the claim as stated.) -/
theorem eos_gating_amended {K M : Type} [LinearOrderedCommRing K] (cfg : BeamCfg K M)
    (t : ℕ) (row : Row K) (he : cfg.eosIndex < row.length) :
    (gateRow cfg t row).getD cfg.eosIndex cfg.minusInf =
      (if cfg.belowMinSteps t then cfg.minusInf
       else if cfg.eosThreshold * (((row.take cfg.eosIndex).max?).getD cfg.minusInf) <
           row.getD cfg.eosIndex cfg.minusInf
         then row.getD cfg.eosIndex cfg.minusInf
         else cfg.minusInf) ∧
    (∀ (j : ℕ) (d : K), j ≠ cfg.eosIndex → (gateRow cfg t row).getD j d = row.getD j d) ∧
    (gateRow cfg t row).length = row.length := by
  by_cases hbm : cfg.belowMinSteps t = true
  · refine ⟨?_, ?_, ?_⟩
    · rw [gateRow_belowMin cfg t row hbm he, hbm, if_pos rfl]
    · intro j d hj
      simp only [gateRow, hbm, if_true]
      rw [getD_set_ne _ _ _ _ _ (fun hh => hj hh.symm),
        getD_set_ne _ _ _ _ _ (fun hh => hj hh.symm)]
    · simp [gateRow, hbm]
  · have hbm' : cfg.belowMinSteps t = false := by
      cases h : cfg.belowMinSteps t
      · rfl
      · exact absurd h hbm
    refine ⟨?_, ?_, ?_⟩
    · simp only [gateRow, hbm', Bool.false_eq_true, if_false]
      rw [getD_set_self _ _ _ _ he]
    · intro j d hj
      simp only [gateRow, hbm', Bool.false_eq_true, if_false]
      rw [getD_set_ne _ _ _ _ _ (fun hh => hj hh.symm)]
    · simp [gateRow, hbm']

/-- Concrete beam run refuting C1 as stated: one example, two beams,
vocabulary `{0, eos=1, 2}` with the eos index not last, constant
log-probabilities `[-10, -2, -1]`, threshold `1`. -/
def cexC1 : BeamCfg ℤ Unit where
  batchSize := 1
  T := 1
  bosIndex := 0
  eosIndex := 1
  minDecodeRatio := 0
  maxDecodeRatio := 1
  beamSize := 2
  lengthPenalty := 0
  eosThreshold := 1
  minusInf := -(10 ^ 20)
  resetMem := ()
  step := fun _ _ => ([[-10, -2, -1], [-10, -2, -1]], ())
  permute := fun m _ => m

/-- Counterexample to C1 as stated.  The maximum log-probability over
all non-eos columns of the emitted row `[-10, -2, -1]` (eos index 1)
is `-1`, and the eos value `-2` does not exceed
`eos_threshold * (-1) = -1`; the claim says such a token is never
selected, yet the second retained slot's chosen token is the eos index
(the code gates only against the columns before the eos index, whose
maximum is `-10`). -/
theorem eos_gating_cex :
    (beamLoop cexC1).inpTokens.getD 1 0 = cexC1.eosIndex ∧
    ((([-10, -2, -1] : List ℤ).eraseIdx cexC1.eosIndex).max?.getD 0 = -1) ∧
    ¬ (cexC1.eosThreshold * (-1) < ([-10, -2, -1] : List ℤ).getD cexC1.eosIndex 0) ∧
    (cexC1.step (beamLoop cexC1).inpTokens ()).1.getD 1 [] = [-10, -2, -1] := by
  decide

/-- Witness for C1 (amended) on the `cexC1` row: the gated eos value is
given by the stated formula (and indeed equals `-2`, the kept eos
log-probability, since `-2 > 1 * (-10)`). -/
theorem eos_gating_amended_witness :
    (cexC1.eosIndex < ([-10, -2, -1] : List ℤ).length) ∧
    (gateRow cexC1 0 [-10, -2, -1]).getD cexC1.eosIndex cexC1.minusInf =
      (if cexC1.belowMinSteps 0 then cexC1.minusInf
       else if cexC1.eosThreshold *
           ((([-10, -2, -1] : List ℤ).take cexC1.eosIndex).max?.getD cexC1.minusInf) <
           ([-10, -2, -1] : List ℤ).getD cexC1.eosIndex cexC1.minusInf
         then ([-10, -2, -1] : List ℤ).getD cexC1.eosIndex cexC1.minusInf
         else cexC1.minusInf) ∧
    (gateRow cexC1 0 [-10, -2, -1]).getD cexC1.eosIndex cexC1.minusInf = -2 :=
  ⟨by decide, (eos_gating_amended cexC1 0 [-10, -2, -1] (by decide)).1, by decide⟩

/- ------------------------------------------------------------------
Claim C5: counterexample and amended theorem.
------------------------------------------------------------------ -/

/-- The per-step token, predecessor and score vectors all have the
same length (one entry per retained candidate). -/
theorem stepNewScores_length {K M : Type} [LinearOrderedCommRing K] (cfg : BeamCfg K M)
    (s : BeamState K M) :
    (stepNewScores cfg s).length = (stepTokens cfg s).length := by
  rw [stepNewScores, stepTokens, List.length_flatten, List.length_flatten,
    beamSelections, List.map_map, List.map_map, List.map_map]
  congr 1
  apply List.map_congr_left
  intro i hi
  simp only [Function.comp_apply, List.length_map]
  rw [getD_map_range _ _ _ _ (List.mem_range.mp hi)]

/-- Processing the retirement pass records the pair of any eos-chosen
index, unless the example's retired list is (or becomes) full. -/
theorem retireAll_processed {K M : Type} [LinearOrderedCommRing K] (cfg : BeamCfg K M)
    (t : ℕ) (tokens : List ℕ) (scores : List (Score K)) (alived : List (List ℕ)) :
    ∀ (n : ℕ) (hyps : List (List (List ℕ × Score K))) (idx : ℕ), idx < n →
      tokens.getD idx (cfg.eosIndex + 1) = cfg.eosIndex →
      (hyps.getD (idx / cfg.beamSize) []).length ≤ cfg.beamSize →
      idx / cfg.beamSize < hyps.length →
      ((alived.getD idx [],
          (scores.getD idx ⊥) + ((cfg.lengthPenalty * (((t + 1 : ℕ) : K))) : K)) ∈
            (retireAll cfg t tokens scores alived n hyps).getD (idx / cfg.beamSize) [] ∨
        ((retireAll cfg t tokens scores alived n hyps).getD (idx / cfg.beamSize) []).length =
          cfg.beamSize)
  | 0, _, idx, hlt, _, _, _ => absurd hlt (by omega)
  | n + 1, hyps, idx, hlt, heos, hble, hblen => by
    rcases Nat.lt_or_ge idx n with hidxn | hidxn
    · rcases retireAll_processed cfg t tokens scores alived n hyps idx hidxn heos hble
        hblen with hmem | hfull
      · exact Or.inl (retireOne_mono cfg t tokens scores alived n _ _ _ hmem)
      · exact Or.inr (retireOne_full cfg t tokens scores alived n _ _ hfull)
    · have hidxeq : idx = n := by omega
      subst hidxeq
      have hXle : ((retireAll cfg t tokens scores alived idx hyps).getD
          (idx / cfg.beamSize) []).length ≤ cfg.beamSize :=
        retireAll_le_single cfg t tokens scores alived idx hyps _ hble
      have hXlen : idx / cfg.beamSize <
          (retireAll cfg t tokens scores alived idx hyps).length := by
        rw [retireAll_length]
        exact hblen
      show _ ∨ _
      rw [retireAll]
      unfold retireOne
      rw [if_pos heos]
      by_cases hguard : ((retireAll cfg t tokens scores alived idx hyps).getD
          (idx / cfg.beamSize) []).length = cfg.beamSize
      · rw [if_pos hguard]
        exact Or.inr hguard
      · rw [if_neg hguard]
        refine Or.inl ?_
        rw [getD_set_self _ _ _ _ hXlen]
        exact List.mem_append_right _ (List.mem_singleton_self _)

/-- Claim C5 (amended): at every step, every slot whose chosen token is
the eos id has its pair `(history, score + length_penalty * (t+1))`
recorded into its example's retired list unless that list is full
(`beam_size` entries), and its running sequence score is masked to
`-inf` (note: `-np.inf`, not the finite `minus_inf` sentinel).  The
mask prevents re-selection only while some candidate of the example
scores above `-inf`; when every candidate is `-inf` the retired slot
can be selected again — see the counterexample. -/
theorem eos_retirement_amended {K M : Type} [LinearOrderedCommRing K] (cfg : BeamCfg K M)
    (s : BeamState K M) (idx : ℕ)
    (hidx : idx < (stepTokens cfg s).length)
    (heos : (stepTokens cfg s).getD idx (cfg.eosIndex + 1) = cfg.eosIndex)
    (hble : (s.hypsAndScores.getD (idx / cfg.beamSize) []).length ≤ cfg.beamSize)
    (hblen : idx / cfg.beamSize < s.hypsAndScores.length) :
    (((stepAlived cfg s).getD idx [],
        ((stepNewScores cfg s).getD idx ⊥) +
          ((cfg.lengthPenalty * (((s.t + 1 : ℕ) : K))) : K)) ∈
          (beamStep cfg s).hypsAndScores.getD (idx / cfg.beamSize) [] ∨
      ((beamStep cfg s).hypsAndScores.getD (idx / cfg.beamSize) []).length =
        cfg.beamSize) ∧
    (beamStep cfg s).sequenceScores.getD idx ⊥ = ⊥ := by
  constructor
  · rw [beamStep_hypsAndScores]
    exact retireAll_processed cfg s.t _ _ _ _ s.hypsAndScores idx hidx heos hble hblen
  · rw [beamStep_sequenceScores,
      zipWith_getD _ _ _ idx (cfg.eosIndex + 1) ⊥ ⊥ hidx
        (by rw [stepNewScores_length]; exact hidx),
      heos, if_pos rfl]

/-- Concrete beam run refuting the "never selected again" part of C5:
one beam slot, vocabulary `{0, eos=1}`, two decoding steps, constant
log-probabilities `[-2, -1]`. -/
def cexC5 : BeamCfg ℤ Unit where
  batchSize := 1
  T := 2
  bosIndex := 0
  eosIndex := 1
  minDecodeRatio := 0
  maxDecodeRatio := 1
  beamSize := 1
  lengthPenalty := 0
  eosThreshold := 1
  minusInf := -(10 ^ 20)
  resetMem := ()
  step := fun _ _ => ([[-2, -1]], ())
  permute := fun m _ => m

/-- Counterexample to C5 as stated.  At step 0 the only slot chooses
eos, is retired with score `-1` and its running score is masked to
`-inf`; at step 1 every candidate of the example scores `-inf`, and the
retired slot is nevertheless selected again as predecessor (index 0),
its eos-terminated history being extended to `[1, 0]`. -/
theorem eos_retirement_cex :
    (beamRunN cexC5 1).hypsAndScores = [[([1], ((-1 : ℤ) : Score ℤ))]] ∧
    (beamRunN cexC5 1).sequenceScores = [⊥] ∧
    (beamRunN cexC5 1).inpTokens = [1] ∧
    stepPredecessors cexC5 (beamRunN cexC5 1) = [0] ∧
    (beamLoop cexC5).alivedSeq = [[1, 0]] := by
  decide

/-- Witness for C5 (amended) at step 0 of `cexC5`: the eos-chosen slot
is recorded (or the list is full) and its sequence score is masked. -/
theorem eos_retirement_amended_witness :
    (0 < (stepTokens cexC5 (beamRunN cexC5 0)).length ∧
      (stepTokens cexC5 (beamRunN cexC5 0)).getD 0 (cexC5.eosIndex + 1) = cexC5.eosIndex ∧
      ((beamRunN cexC5 0).hypsAndScores.getD 0 []).length ≤ cexC5.beamSize ∧
      0 < (beamRunN cexC5 0).hypsAndScores.length) ∧
    (beamStep cexC5 (beamRunN cexC5 0)).sequenceScores.getD 0 ⊥ = ⊥ :=
  ⟨⟨by decide, by decide, by decide, by decide⟩,
    (eos_retirement_amended cexC5 (beamRunN cexC5 0) 0 (by decide) (by decide)
      (by decide) (by decide)).2⟩

/- ------------------------------------------------------------------
Claim C6: counterexample and amended theorem.
------------------------------------------------------------------ -/

/-- The initial accumulator bounds a max-fold from below. -/
theorem foldl_max_init_le {K : Type} [LinearOrderedCommRing K] :
    ∀ (l : List (Score K)) (init : Score K), init ≤ l.foldl max init
  | [], _ => le_refl _
  | x :: l, init => le_trans (le_max_left init x) (foldl_max_init_le l (max init x))

/-- Every member bounds a max-fold from below. -/
theorem le_foldl_max {K : Type} [LinearOrderedCommRing K] :
    ∀ (l : List (Score K)) (init x : Score K), x ∈ l → x ≤ l.foldl max init
  | [], _, x, hx => absurd hx (List.not_mem_nil x)
  | y :: l, init, x, hx => by
    rcases List.mem_cons.mp hx with h | h
    · subst h
      exact le_trans (le_max_right init x) (foldl_max_init_le l (max init x))
    · exact le_foldl_max l (max init y) x h

/-- The greatest candidate score among the eos-token candidates of
example `i` at one step (`⊥` when there is none). -/
def eosCandMax {K : Type} [LinearOrderedCommRing K] (beamSize : ℕ) (minusInf : K)
    (eosIndex : ℕ) (seqScores : List (Score K)) (gated : List (Row K)) (vocab i : ℕ) :
    Score K :=
  (((List.range (beamSize * vocab)).filter (fun c => decide (c % vocab = eosIndex))).map
    (candScore beamSize minusInf seqScores gated vocab i)).foldl max ⊥

/-- Claim C6 (amended): below the minimum step count the eos column of
every slot is masked to the sentinel before candidate scoring; and
whenever at least `beam_size` candidates of an example score strictly
above all of that example's eos candidates, no retained candidate of
that example carries the eos token, so no hypothesis of that example
retires at that step.  (Without the abundance condition a retirement
below the minimum step count is possible — see the counterexample.) -/
theorem min_length_masking_amended {K M : Type} [LinearOrderedCommRing K]
    (cfg : BeamCfg K M) (s : BeamState K M) (hr : 0 ≤ cfg.minDecodeRatio)
    (ht : s.t < ⌊(cfg.T : ℚ) * cfg.minDecodeRatio⌋₊) :
    (∀ j : ℕ, j < (stepLogProbs cfg s).length →
      cfg.eosIndex < ((stepLogProbs cfg s).getD j []).length →
      ((stepGated cfg s).getD j []).getD cfg.eosIndex cfg.minusInf = cfg.minusInf) ∧
    (∀ i : ℕ,
      cfg.beamSize ≤ ((List.range (cfg.beamSize * vocabOf cfg s)).filter
        (fun c => decide
          (eosCandMax cfg.beamSize cfg.minusInf cfg.eosIndex s.sequenceScores
              (stepGated cfg s) (vocabOf cfg s) i <
            candScore cfg.beamSize cfg.minusInf s.sequenceScores (stepGated cfg s)
              (vocabOf cfg s) i c))).length →
      ∀ c ∈ beamSelect cfg s.sequenceScores (stepGated cfg s) (vocabOf cfg s) i,
        c % vocabOf cfg s ≠ cfg.eosIndex) := by
  have hbm : cfg.belowMinSteps s.t = true := by
    rw [BeamCfg.belowMinSteps, natLtMulRat_iff]
    have h1 : (s.t : ℚ) < (⌊(cfg.T : ℚ) * cfg.minDecodeRatio⌋₊ : ℚ) := by exact_mod_cast ht
    exact lt_of_lt_of_le h1 (Nat.floor_le (by positivity))
  constructor
  · intro j hj he
    rw [stepGated, getD_map_inbounds _ _ _ _ [] hj]
    exact gateRow_belowMin cfg s.t _ hbm he
  · intro i habund c hc hceq
    have hgt := topkIdx_gt _ _ cfg.beamSize _ habund c hc
    have hmemrange : c ∈ List.range (cfg.beamSize * vocabOf cfg s) :=
      topkIdx_mem _ _ _ c hc
    have hcfilter : c ∈ (List.range (cfg.beamSize * vocabOf cfg s)).filter
        (fun c => decide (c % vocabOf cfg s = cfg.eosIndex)) :=
      List.mem_filter.mpr ⟨hmemrange, by simp [hceq]⟩
    have hle : candScore cfg.beamSize cfg.minusInf s.sequenceScores (stepGated cfg s)
        (vocabOf cfg s) i c ≤
        eosCandMax cfg.beamSize cfg.minusInf cfg.eosIndex s.sequenceScores
          (stepGated cfg s) (vocabOf cfg s) i :=
      le_foldl_max _ ⊥ _ (List.mem_map_of_mem _ hcfilter)
    exact absurd hgt (not_lt.mpr hle)

/-- Concrete beam run refuting C6 as stated: two beams over vocabulary
`{0, eos=1}`, `min_decode_ratio = 1` with `T = 1`, so step 0 is below
the minimum step count; log-probabilities `[-2, -1]`. -/
def cexC6 : BeamCfg ℤ Unit where
  batchSize := 1
  T := 1
  bosIndex := 0
  eosIndex := 1
  minDecodeRatio := 1
  maxDecodeRatio := 1
  beamSize := 2
  lengthPenalty := 0
  eosThreshold := 1
  minusInf := -(10 ^ 20)
  resetMem := ()
  step := fun _ _ => ([[-2, -1], [-2, -1]], ())
  permute := fun m _ => m

/-- Counterexample to C6 as stated.  With `min_decode_ratio = 1 > 0`
and `min_decode_steps = 1`, step `0` is below the minimum, yet a
hypothesis retires at step 0: the example has only two candidates above
`-inf` (both from the single live slot), so the sentinel-masked eos
candidate is still retained, chosen, and recorded with score
`-10^20`. -/
theorem min_length_cex :
    (0 : ℚ) < cexC6.minDecodeRatio ∧
    0 < natMulFloor cexC6.T cexC6.minDecodeRatio ∧
    cexC6.belowMinSteps 0 = true ∧
    (beamLoop cexC6).hypsAndScores = [[([1], ((-(10 : ℤ) ^ 20 : ℤ) : Score ℤ))]] := by
  decide

/-- Witness for C6 (amended) at step 0 of `cexC6`: the gated eos column
of slot 0 equals the sentinel. -/
theorem min_length_masking_amended_witness :
    ((0 : ℚ) ≤ cexC6.minDecodeRatio ∧
      (beamRunN cexC6 0).t < ⌊(cexC6.T : ℚ) * cexC6.minDecodeRatio⌋₊) ∧
    ((stepGated cexC6 (beamRunN cexC6 0)).getD 0 []).getD cexC6.eosIndex cexC6.minusInf =
      cexC6.minusInf := by
  have ht : (beamRunN cexC6 0).t < ⌊(cexC6.T : ℚ) * cexC6.minDecodeRatio⌋₊ := by
    show (0 : ℕ) < ⌊(cexC6.T : ℚ) * cexC6.minDecodeRatio⌋₊
    simp [cexC6]
  exact ⟨⟨by decide, ht⟩,
    (min_length_masking_amended cexC6 (beamRunN cexC6 0) (by decide) ht).1 0
      (by decide) (by decide)⟩

/- ------------------------------------------------------------------
Claim C7.
------------------------------------------------------------------ -/

/-- The retired lists at finalization of a full run. -/
def finalHypsOf {K M : Type} [LinearOrderedCommRing K] (cfg : BeamCfg K M) :
    List (List (List ℕ × Score K)) :=
  beamFinalHyps cfg (beamLoop cfg)

/-- The per-example pick of lines 348-350 on a full run. -/
def bestOf {K M : Type} [LinearOrderedCommRing K] (cfg : BeamCfg K M) (i : ℕ) :
    List ℕ × Score K :=
  pickBest ((finalHypsOf cfg).getD i [])

/-- Definitional projection of `beamOutputs`: the predictions list. -/
theorem beamOutputs_fst {K M : Type} [LinearOrderedCommRing K] (cfg : BeamCfg K M) :
    (beamOutputs cfg).1 =
      ((List.range cfg.batchSize).map (fun i => pickBest ((finalHypsOf cfg).getD i []))).map
        (fun p => filter_seq2seq_output p.1 cfg.eosIndex) := rfl

/-- Definitional projection of `beamOutputs`: the scores list. -/
theorem beamOutputs_snd {K M : Type} [LinearOrderedCommRing K] (cfg : BeamCfg K M) :
    (beamOutputs cfg).2 =
      ((List.range cfg.batchSize).map (fun i => pickBest ((finalHypsOf cfg).getD i []))).map
        Prod.snd := rfl

/-- The position of the first occurrence of `a` in `l`. -/
def firstIdx {α : Type} [DecidableEq α] (a : α) (l : List α) : ℕ :=
  l.findIdx (fun x => decide (x = a))

/-- Claim C7: at finalization exactly one best hypothesis is returned
per example (the outputs have one prediction and one score per
example); the picked pair belongs to the example's retired list
(loop-retired plus backfilled), its score is maximal there, ties are
broken by the first position in iteration order, the returned sequence
is the picked hypothesis passed through the filter, and it contains no
eos token. -/
theorem finalization_best_pick {K M : Type} [LinearOrderedCommRing K] (cfg : BeamCfg K M)
    (hb : 1 ≤ cfg.beamSize) (i : ℕ) (hi : i < cfg.batchSize) :
    ((beamOutputs cfg).1.length = cfg.batchSize ∧
      (beamOutputs cfg).2.length = cfg.batchSize) ∧
    bestOf cfg i ∈ (finalHypsOf cfg).getD i [] ∧
    (∀ p ∈ (finalHypsOf cfg).getD i [], p.2 ≤ (bestOf cfg i).2) ∧
    (∀ p ∈ (finalHypsOf cfg).getD i [], (bestOf cfg i).2 ≤ p.2 →
      firstIdx (bestOf cfg i) ((finalHypsOf cfg).getD i []) ≤
        firstIdx p ((finalHypsOf cfg).getD i [])) ∧
    (beamOutputs cfg).1.getD i [] =
      filter_seq2seq_output (bestOf cfg i).1 cfg.eosIndex ∧
    cfg.eosIndex ∉ (beamOutputs cfg).1.getD i [] := by
  have hlen : ((finalHypsOf cfg).getD i []).length = cfg.beamSize :=
    final_hyps_len cfg i hi
  have hne : (finalHypsOf cfg).getD i [] ≠ [] := by
    apply List.ne_nil_of_length_pos
    omega
  have harg := pickBest_eq_argmax ((finalHypsOf cfg).getD i []) hne
  have hmem0 : bestOf cfg i ∈ List.argmax Prod.snd ((finalHypsOf cfg).getD i []) :=
    Option.mem_def.mpr harg
  have hout : (beamOutputs cfg).1.getD i [] =
      filter_seq2seq_output (bestOf cfg i).1 cfg.eosIndex := by
    rw [beamOutputs_fst,
      getD_map_inbounds _ _ i [] ([], ⊥) (by simpa using hi),
      getD_map_range _ _ _ _ hi]
    rfl
  refine ⟨⟨?_, ?_⟩, List.argmax_mem hmem0,
    fun p hp => List.le_of_mem_argmax hp hmem0, ?_, hout, ?_⟩
  · rw [beamOutputs_fst]
    simp
  · rw [beamOutputs_snd]
    simp
  · intro p hp hle
    have hidx := List.index_of_argmax hmem0 hp hle
    simpa [firstIdx, List.indexOf] using hidx
  · rw [hout, filter_seq2seq_output_eq_takeWhile]
    intro hmem
    have := List.mem_takeWhile_imp hmem
    simp at this

/-- A concrete beam configuration for the C7 witness: one beam slot,
vocabulary `{0, eos=1}`, a single decoding step in which the slot
retires. -/
def wBeamC7 : BeamCfg ℤ Unit where
  batchSize := 1
  T := 1
  bosIndex := 0
  eosIndex := 1
  minDecodeRatio := 0
  maxDecodeRatio := 1
  beamSize := 1
  lengthPenalty := 0
  eosThreshold := 1
  minusInf := -(10 ^ 20)
  resetMem := ()
  step := fun _ _ => ([[-2, -1]], ())
  permute := fun m _ => m

/-- Witness for C7 on `wBeamC7`: the returned prediction of the single
example contains no eos token. -/
theorem finalization_best_pick_witness :
    (1 ≤ wBeamC7.beamSize ∧ 0 < wBeamC7.batchSize) ∧
    wBeamC7.eosIndex ∉ (beamOutputs wBeamC7).1.getD 0 [] :=
  ⟨⟨by decide, by decide⟩,
    (finalization_best_pick wBeamC7 (by decide) 0 (by decide)).2.2.2.2.2⟩
